/-
Verification of the in-memory release-tree and change-diff engine of the
jiraiya repository (internal/releasetree/releasetree.go and
internal/service/tree_manager.go), as a shallow embedding in Lean 4.

Modelling conventions:
* Go's `map[string]*node` together with pointer-linked nodes is embedded as an
  arena: an association list from version strings to node records whose
  parent/children fields hold version strings.  In the Go code every parent
  pointer is obtained from (and never removed from) the version map, and map
  entries are never overwritten, so pointer identity coincides with version
  identity and the arena view is faithful.
* Go errors are embedded as an inductive type; each constructor carries
  exactly the data interpolated into the corresponding fmt.Errorf call.
* The ancestor walks in findLCA/CalcChgs follow parent pointers and, in Go,
  diverge on a cyclic parent chain.  They are embedded with fuel
  (number of nodes + 1); a `none` result marks exactly the diverging runs,
  since a terminating Go walk never revisits a node and therefore visits at
  most (number of nodes + 1) of them.
* Go map iteration order is unspecified; the model fixes insertion order.
  Claims settled on concrete ordered outputs depend only on the sort that
  follows the iteration, or are order-independent, as noted at each theorem.
* `sort.Slice` is embedded as the insertion sort Go itself uses for the
  resulting small slices: the new element bubbles left while `less` holds.
* Go's `<` on strings compares bytes; on valid UTF-8 this equals code-point
  lexicographic order, which is what `strLtB` computes.
-/
import Mathlib

set_option linter.unusedVariables false

/-- A single change item (releasetree.Chg). -/
structure Chg where
  id : String
deriving DecidableEq, Repr

/-- Raw data for a release node (releasetree.ReleaseInput). -/
structure ReleaseInput where
  ver : String
  fromVer : String
  changes : List Chg
deriving DecidableEq, Repr

/-- A node of the N-ary release tree (releasetree.node), with the parent
pointer and child pointers represented by version strings. -/
structure Node where
  version : String
  changes : List Chg
  parent : Option String
  children : List String
deriving DecidableEq, Repr

/-- The tree structure (releasetree.ReleaseTree): version-keyed arena plus
the root pointer.  The sync.RWMutex has no content in a sequential model. -/
structure ReleaseTree where
  nodes : List (String × Node)
  root : Option String
deriving DecidableEq, Repr

/-- The errors produced by the release tree and tree manager; each
constructor carries the data interpolated into the Go error string. -/
inductive RTError where
  | dupVersion (v : String)
  | parentNotFoundBuild (fromVer ver : String)
  | noRoot
  | rootNilDespiteInputs
  | insertDup (v : String)
  | insertRootExists (v root : String)
  | insertParentNotFound (fromVer ver : String)
  | lcaVersionNotFound (v : String)
  | lcaNoCommonAncestor (v1 v2 : String)
  | findLCAWrap (v1 v2 : String) (e : RTError)
  | calcLCAWrap (endV startV : String) (e : RTError)
  | calcSubset (chgID nodeVer startV endV : String)
deriving DecidableEq, Repr

instance {ε α : Type} [DecidableEq ε] [DecidableEq α] : DecidableEq (Except ε α) := fun x y =>
  match x, y with
  | Except.ok a, Except.ok b =>
    if h : a = b then isTrue (by rw [h]) else isFalse (by intro hc; cases hc; exact h rfl)
  | Except.ok _, Except.error _ => isFalse (by intro h; cases h)
  | Except.error _, Except.ok _ => isFalse (by intro h; cases h)
  | Except.error e, Except.error f =>
    if h : e = f then isTrue (by rw [h]) else isFalse (by intro hc; cases hc; exact h rfl)

section AssocOps

variable {β : Type}

/-- Association-list lookup: the Go map read m[k]. -/
def alookup : List (String × β) → String → Option β
  | [], _ => none
  | p :: rest, k => if p.1 = k then some p.2 else alookup rest k

/-- Association-list update of the entry at a key (mutation of the node
object the Go map holds at that key). -/
def aupdate (m : List (String × β)) (k : String) (f : β → β) : List (String × β) :=
  m.map (fun p => if p.1 = k then (p.1, f p.2) else p)

/-- Association-list insert-or-replace: the Go map write m[k] = v. -/
def ainsert : List (String × β) → String → β → List (String × β)
  | [], k, v => [(k, v)]
  | p :: rest, k, v => if p.1 = k then (k, v) :: rest else p :: ainsert rest k v

/-- Association-list removal: the Go built-in delete(m, k). -/
def aerase : List (String × β) → String → List (String × β)
  | [], _ => []
  | p :: rest, k => if p.1 = k then aerase rest k else p :: aerase rest k

/-- The keys of an association list. -/
def akeys (m : List (String × β)) : List String := m.map (·.1)

end AssocOps

/-- Pass 1 of NewReleaseTree: create one node per input, rejecting duplicate
versions.  Each node starts with no parent and no children. -/
def pass1 : List ReleaseInput → List (String × Node) → Except RTError (List (String × Node))
  | [], acc => Except.ok acc
  | i :: rest, acc =>
    if (alookup acc i.ver).isSome then Except.error (RTError.dupVersion i.ver)
    else pass1 rest (acc ++ [(i.ver, ⟨i.ver, i.changes, none, []⟩)])

/-- Pass 2 of NewReleaseTree: link each node to its parent; the first input
with an empty FromVer becomes the root, and all empty-FromVer inputs are
counted in foundRoots.  State: (nodes, root, foundRoots). -/
def pass2 : List ReleaseInput → List (String × Node) × Option String × Nat →
    Except RTError (List (String × Node) × Option String × Nat)
  | [], st => Except.ok st
  | i :: rest, (ns, root, fr) =>
    if i.fromVer = "" then
      let root' := match root with
        | none => some i.ver
        | some r => some r
      pass2 rest (ns, root', fr + 1)
    else
      match alookup ns i.fromVer with
      | none => Except.error (RTError.parentNotFoundBuild i.fromVer i.ver)
      | some _ =>
        let ns' := aupdate ns i.ver (fun n => { n with parent := some i.fromVer })
        let ns'' := aupdate ns' i.fromVer (fun n => { n with children := n.children ++ [i.ver] })
        pass2 rest (ns'', root, fr)

/-- releasetree.NewReleaseTree: build the tree from a slice of inputs. -/
def NewReleaseTree (inputs : List ReleaseInput) : Except RTError ReleaseTree :=
  match pass1 inputs [] with
  | Except.error e => Except.error e
  | Except.ok ns =>
    match pass2 inputs (ns, none, 0) with
    | Except.error e => Except.error e
    | Except.ok (ns', root, fr) =>
      if 0 < inputs.length ∧ root = none then
        if fr = 0 then Except.error RTError.noRoot
        else Except.error RTError.rootNilDespiteInputs
      else Except.ok ⟨ns', root⟩

/-- releasetree.InsertNode.  The second component is the tree state after the
call: the Go method mutates the receiver, and every error is returned before
the first mutation, which this embedding makes checkable. -/
def InsertNode (t : ReleaseTree) (i : ReleaseInput) : Except RTError Unit × ReleaseTree :=
  if (alookup t.nodes i.ver).isSome then
    (Except.error (RTError.insertDup i.ver), t)
  else if i.fromVer = "" then
    match t.root with
    | some r => (Except.error (RTError.insertRootExists i.ver r), t)
    | none =>
      (Except.ok (),
        ⟨t.nodes ++ [(i.ver, ⟨i.ver, i.changes, none, []⟩)], some i.ver⟩)
  else
    match alookup t.nodes i.fromVer with
    | none => (Except.error (RTError.insertParentNotFound i.fromVer i.ver), t)
    | some _ =>
      let ns := t.nodes ++ [(i.ver, ⟨i.ver, i.changes, some i.fromVer, []⟩)]
      let ns' := aupdate ns i.fromVer (fun n => { n with children := n.children ++ [i.ver] })
      (Except.ok (), ⟨ns', t.root⟩)

/-- One step of an ancestor walk: from a version to its parent version
(curr = curr.parent in Go). -/
def stepP (ns : List (String × Node)) (v : String) : Option String :=
  match alookup ns v with
  | none => none
  | some n => n.parent

/-- Fueled ancestor chain from a version, inclusive, following parent
pointers to the root (the loops `for curr != nil`).  `none` marks a run that
diverges in Go (cyclic parent chain). -/
def chainAux (ns : List (String × Node)) : Nat → String → Option (List String)
  | 0, _ => none
  | fuel + 1, v =>
    match stepP ns v with
    | none => some [v]
    | some p => (chainAux ns fuel p).map (fun l => v :: l)

/-- Fuel sufficient for every terminating walk: a terminating walk never
revisits a node, so it visits at most (number of nodes + 1) versions. -/
def chainFuel (t : ReleaseTree) : Nat := t.nodes.length + 1

/-- The full ancestor chain of a version in a tree. -/
def chain (t : ReleaseTree) (v : String) : Option (List String) :=
  chainAux t.nodes (chainFuel t) v

/-- releasetree.findLCA (the lock-free internal function).  The outer
`Option` marks divergence, the inner `Except` is the Go return value. -/
def findLCA (t : ReleaseTree) (v1 v2 : String) : Option (Except RTError String) :=
  match alookup t.nodes v1 with
  | none => some (Except.error (RTError.lcaVersionNotFound v1))
  | some _ =>
    match alookup t.nodes v2 with
    | none => some (Except.error (RTError.lcaVersionNotFound v2))
    | some _ =>
      if v1 = v2 then some (Except.ok v1)
      else
        match chain t v1, chain t v2 with
        | some anc, some ch2 =>
          match ch2.find? (fun y => decide (y ∈ anc)) with
          | some c => some (Except.ok c)
          | none => some (Except.error (RTError.lcaNoCommonAncestor v1 v2))
        | _, _ => none

/-- releasetree.FindLCA: the locking wrapper, which wraps errors. -/
def FindLCA (t : ReleaseTree) (v1 v2 : String) : Option (Except RTError String) :=
  (findLCA t v1 v2).map (fun r =>
    match r with
    | Except.ok v => Except.ok v
    | Except.error e => Except.error (RTError.findLCAWrap v1 v2 e))

/-- Fueled walk from a version up to (but excluding) the LCA, collecting the
nodes visited (the loops `for curr != nil && curr != lcaNode`). -/
def walkTo (ns : List (String × Node)) (lca : String) : Nat → Option String → Option (List Node)
  | _, none => some []
  | 0, some _ => none
  | fuel + 1, some v =>
    if v = lca then some []
    else
      match alookup ns v with
      | none => some []
      | some n => (walkTo ns lca fuel n.parent).map (fun l => n :: l)

/-- Subtraction loop of CalcChgs over the start path, flattened to
(node version, change) pairs in walk order: for each change, remove it from
the accumulator if present, otherwise fail with the subset-violation error
carrying the change ID, the version of the node it was found on, and both
requested versions, in the order of the Go fmt.Errorf call. -/
def subPairs (startV endV : String) :
    List (String × Chg) → List (String × Chg) → Except RTError (List (String × Chg))
  | [], m => Except.ok m
  | (nv, c) :: rest, m =>
    if (alookup m c.id).isSome then subPairs startV endV rest (aerase m c.id)
    else Except.error (RTError.calcSubset c.id nv startV endV)

/-- Code-point comparison of char lists: Go's byte-wise `<` on strings
(identical on valid UTF-8). -/
def charsLtB : List Char → List Char → Bool
  | [], [] => false
  | [], _ :: _ => true
  | _ :: _, [] => false
  | a :: as, b :: bs =>
    if a.toNat < b.toNat then true
    else if b.toNat < a.toNat then false
    else charsLtB as bs

/-- Go's `<` on strings. -/
def strLtB (a b : String) : Bool := charsLtB a.data b.data

/-- strconv.Atoi: optional sign, at least one digit, all digits, value within
the 64-bit int range; anything else is an error (`none`). -/
def goAtoi (s : String) : Option Int :=
  let signDigits : Int × List Char :=
    match s.data with
    | '+' :: rest => (1, rest)
    | '-' :: rest => (-1, rest)
    | rest => (1, rest)
  match signDigits with
  | (sign, digits) =>
    if digits = [] then none
    else if digits.all (fun c => c.isDigit) then
      let n : Nat := digits.foldl (fun acc c => acc * 10 + (c.toNat - 48)) 0
      let v : Int := sign * (n : Int)
      if -(2 ^ 63) ≤ v ∧ v ≤ 2 ^ 63 - 1 then some v else none
    else none

/-- The comparator passed to sort.Slice in CalcChgs: numeric when both IDs
parse as integers, byte-wise string comparison otherwise. -/
def goLess (a b : Chg) : Bool :=
  match goAtoi a.id, goAtoi b.id with
  | some x, some y => decide (x < y)
  | _, _ => strLtB a.id b.id

/-- Insert into a reversed-ordered accumulator: the element bubbles left
(toward the end of the reversed list) while `less` holds against its left
neighbour, exactly as Go's insertion sort swaps. -/
def insR {α : Type} (less : α → α → Bool) (x : α) : List α → List α
  | [] => [x]
  | y :: rest => if less x y then y :: insR less x rest else x :: y :: rest

/-- The insertion sort Go's sort.Slice performs on the small result slices,
element by element in slice order. -/
def goSort {α : Type} (less : α → α → Bool) (l : List α) : List α :=
  (l.foldl (fun acc x => insR less x acc) []).reverse

/-- releasetree.CalcChgs.  The outer `Option` marks runs that diverge in Go;
the inner `Except` is the Go return value. -/
def CalcChgs (t : ReleaseTree) (endV startV : String) : Option (Except RTError (List Chg)) :=
  match findLCA t endV startV with
  | none => none
  | some (Except.error e) => some (Except.error (RTError.calcLCAWrap endV startV e))
  | some (Except.ok lca) =>
    match walkTo t.nodes lca (chainFuel t) (some endV) with
    | none => none
    | some endNodes =>
      let net := endNodes.foldl
        (fun m n => n.changes.foldl (fun m' c => ainsert m' c.id c) m) []
      match walkTo t.nodes lca (chainFuel t) (some startV) with
      | none => none
      | some startNodes =>
        match subPairs startV endV
            (startNodes.flatMap (fun n => n.changes.map (fun c => (n.version, c)))) net with
        | Except.error e => some (Except.error e)
        | Except.ok m => some (Except.ok (goSort goLess (m.map (·.2))))

/-- A release row as fetched from the external store for one platform
(version and parent version; other columns are not used by tree building). -/
structure ReleaseRow where
  version : String
  fromVer : String
deriving DecidableEq, Repr

/-- TreeManager state: the platform -> tree map (service.TreeManager.trees). -/
abbrev TMState : Type := List (String × ReleaseTree)

/-- The ReleaseInput list TreeManager.buildTree assembles from the fetched
rows and the per-release change-item IDs. -/
def inputsOf (rels : List ReleaseRow) (jiras : String → List String) : List ReleaseInput :=
  rels.map (fun r => ⟨r.version, r.fromVer, (jiras r.version).map Chg.mk⟩)

/-- service.TreeManager.buildTree for one platform, with the external store
abstracted as the fetched rows plus the change-item query. -/
def buildTree (tm : TMState) (platform : String) (rels : List ReleaseRow)
    (jiras : String → List String) : Except RTError TMState :=
  match NewReleaseTree (inputsOf rels jiras) with
  | Except.error e => Except.error e
  | Except.ok t => Except.ok (ainsert tm platform t)

/-- service.TreeManager.Rebuild: zero remaining releases removes the
platform entry; otherwise the tree is rebuilt from the fetched rows.
The store is modelled as one consistent snapshot across the two fetches. -/
def Rebuild (tm : TMState) (platform : String) (rels : List ReleaseRow)
    (jiras : String → List String) : Except RTError TMState :=
  if rels.length = 0 then Except.ok (aerase tm platform)
  else buildTree tm platform rels jiras

/-- service.TreeManager.Insert: creates a brand-new single-node tree when the
platform has none, else delegates to InsertNode.  The second component is the
manager map after the call. -/
def TMInsert (tm : TMState) (platform : String) (i : ReleaseInput) :
    Except RTError Unit × TMState :=
  match alookup tm platform with
  | none =>
    match NewReleaseTree [i] with
    | Except.error e => (Except.error e, tm)
    | Except.ok t => (Except.ok (), ainsert tm platform t)
  | some t =>
    match InsertNode t i with
    | (Except.error e, _) => (Except.error e, tm)
    | (Except.ok _, t') => (Except.ok (), ainsert tm platform t')

/-- The version strings of nodes whose parent pointer is absent. -/
def parentlessKeys (t : ReleaseTree) : List String :=
  (t.nodes.filter (fun p => p.2.parent.isNone)).map (·.1)

/-- How many inputs of a list carry an empty parent version. -/
def countEmptyFrom (inputs : List ReleaseInput) : Nat :=
  (inputs.filter (fun i => i.fromVer = "")).length

/-- The fixed example tree of the spec and of releasetree_test.go:
root 11 -> 21 (chg 1) -> { 31 (2,3,4) -> { 32 (5,6,7,8), 33 (5,6,7,10) },
22 (5) -> 24 (6,7), 23 (10) }. -/
def exInputs : List ReleaseInput :=
  [ ⟨"11", "", []⟩,
    ⟨"21", "11", [⟨"1"⟩]⟩,
    ⟨"31", "21", [⟨"2"⟩, ⟨"3"⟩, ⟨"4"⟩]⟩,
    ⟨"22", "21", [⟨"5"⟩]⟩,
    ⟨"23", "21", [⟨"10"⟩]⟩,
    ⟨"32", "31", [⟨"5"⟩, ⟨"6"⟩, ⟨"7"⟩, ⟨"8"⟩]⟩,
    ⟨"33", "31", [⟨"5"⟩, ⟨"6"⟩, ⟨"7"⟩, ⟨"10"⟩]⟩,
    ⟨"24", "22", [⟨"6"⟩, ⟨"7"⟩]⟩ ]

/-- The tree built from the fixed example inputs. -/
def exTree : ReleaseTree := (NewReleaseTree exInputs).toOption.getD ⟨[], none⟩

/-- Two inputs that both claim to be roots (empty parent version). -/
def twoRootInputs : List ReleaseInput := [⟨"a", "", []⟩, ⟨"b", "", []⟩]

/-- The tree NewReleaseTree constructs from the two-root input list. -/
def twoRootTree : ReleaseTree := (NewReleaseTree twoRootInputs).toOption.getD ⟨[], none⟩

/-- A tree whose single non-root node carries the mixed-identifier change
items 9, 10 and 5a, on which the sort comparator is cyclic. -/
def mixedInputs : List ReleaseInput :=
  [ ⟨"r", "", []⟩, ⟨"e", "r", [⟨"9"⟩, ⟨"10"⟩, ⟨"5a"⟩]⟩ ]

/-- The tree built from the mixed-identifier inputs. -/
def mixedTree : ReleaseTree := (NewReleaseTree mixedInputs).toOption.getD ⟨[], none⟩

/-- The pair order the spec claims for every successful calcChanges result:
numeric pairs in increasing numeric order, every other pair in increasing
lexicographic order.  (Written from the spec's words, for comparison with
what the code produces.) -/
def specPairLe (a b : Chg) : Prop :=
  match goAtoi a.id, goAtoi b.id with
  | some x, some y => x ≤ y
  | _, _ => strLtB a.id b.id = true ∨ a.id = b.id

instance (a b : Chg) : Decidable (specPairLe a b) := by
  unfold specPairLe
  cases goAtoi a.id <;> cases goAtoi b.id <;> simp <;> infer_instance

/-- The sortedness property the spec claims, pairwise over the result. -/
def specSorted (l : List Chg) : Prop := l.Pairwise specPairLe

instance (l : List Chg) : Decidable (specSorted l) := by
  unfold specSorted; infer_instance

/-- C1 counterexample: on the spec's fixed example tree the code does not
return {2,3,4} for calcChanges("31","22"); it fails with the
subset-consistency error on item 5 (found on node 22), exactly as the
repository's own unit test TC2 expects.  The divergence is independent of
map iteration order: the end-path accumulator {2,3,4} never contains 5. -/
theorem calcChgs_fixed_example_pair_31_22 :
    CalcChgs exTree "31" "22" = some (Except.error (RTError.calcSubset "5" "22" "22" "31")) ∧
    CalcChgs exTree "31" "22" ≠ some (Except.ok [⟨"2"⟩, ⟨"3"⟩, ⟨"4"⟩]) := by
  constructor
  · decide
  · decide

/-- C1 (amended): on the fixed example tree, calcChanges("32","24") =
{2,3,4,8}, calcChanges("33","23") = {2,3,4,5,6,7}, calcChanges("33","21") =
{2,3,4,5,6,7,10}, calcChanges("32","99") fails with a version-not-found
error, and calcChanges("31","22") fails with the subset-consistency error
naming item 5 — it does not return {2,3,4}. -/
theorem calcChgs_fixed_example :
    NewReleaseTree exInputs = Except.ok exTree ∧
    CalcChgs exTree "32" "24" = some (Except.ok [⟨"2"⟩, ⟨"3"⟩, ⟨"4"⟩, ⟨"8"⟩]) ∧
    CalcChgs exTree "33" "23" = some (Except.ok [⟨"2"⟩, ⟨"3"⟩, ⟨"4"⟩, ⟨"5"⟩, ⟨"6"⟩, ⟨"7"⟩]) ∧
    CalcChgs exTree "33" "21" =
      some (Except.ok [⟨"2"⟩, ⟨"3"⟩, ⟨"4"⟩, ⟨"5"⟩, ⟨"6"⟩, ⟨"7"⟩, ⟨"10"⟩]) ∧
    CalcChgs exTree "32" "99" =
      some (Except.error (RTError.calcLCAWrap "32" "99" (RTError.lcaVersionNotFound "99"))) ∧
    CalcChgs exTree "31" "22" =
      some (Except.error (RTError.calcSubset "5" "22" "22" "31")) := by
  refine ⟨by decide, by decide, by decide, by decide, by decide, by decide⟩

/-- C2 counterexample: constructing from a non-empty list in which two
entries have an empty parent version succeeds silently — foundRoots is
counted but never checked against 1 — and the resulting tree holds two
parentless nodes, only the first of which is the root. -/
theorem newReleaseTree_two_roots_silent :
    NewReleaseTree twoRootInputs = Except.ok twoRootTree ∧
    twoRootTree.root = some "a" ∧
    parentlessKeys twoRootTree = ["a", "b"] := by
  refine ⟨by decide, by decide, by decide⟩

/-- C4 counterexample: the result {9, 10, 5a} makes the comparator cyclic
(9 < 10 numerically, "10" < "5a" and "5a" < "9" lexicographically), so no
order of it satisfies the spec's claimed pairwise sortedness; the embedded
run returns [9, 10, 5a], whose pair (9, 5a) violates the lexicographic
requirement. -/
theorem calcChgs_sort_mixed_violation :
    CalcChgs mixedTree "e" "r" = some (Except.ok [⟨"9"⟩, ⟨"10"⟩, ⟨"5a"⟩]) ∧
    ¬ specSorted [⟨"9"⟩, ⟨"10"⟩, ⟨"5a"⟩] ∧
    ¬ specSorted [⟨"9"⟩, ⟨"5a"⟩, ⟨"10"⟩] ∧
    ¬ specSorted [⟨"10"⟩, ⟨"9"⟩, ⟨"5a"⟩] ∧
    ¬ specSorted [⟨"10"⟩, ⟨"5a"⟩, ⟨"9"⟩] ∧
    ¬ specSorted [⟨"5a"⟩, ⟨"9"⟩, ⟨"10"⟩] ∧
    ¬ specSorted [⟨"5a"⟩, ⟨"10"⟩, ⟨"9"⟩] := by
  refine ⟨by decide, by decide, by decide, by decide, by decide, by decide, by decide⟩

/-- C10 counterexample: inserting a self-parented release (non-empty parent
version equal to its own version) for a platform with no tree fails, but
with the no-root construction error, not a missing-parent error — the
single-element construction resolves the parent to the node itself. -/
theorem tmInsert_self_parent_noRoot :
    (TMInsert [] "p" ⟨"X", "X", []⟩).1 = Except.error RTError.noRoot ∧
    (TMInsert [] "p" ⟨"X", "X", []⟩).1 ≠
      Except.error (RTError.parentNotFoundBuild "X" "X") ∧
    (TMInsert [] "p" ⟨"X", "X", []⟩).2 = ([] : TMState) := by
  refine ⟨by decide, by decide, by decide⟩

theorem alookup_aerase_self {β : Type} (m : List (String × β)) (k : String) :
    alookup (aerase m k) k = none := by
  induction m with
  | nil => rfl
  | cons p rest ih =>
    by_cases h : p.1 = k
    · simpa [aerase, h] using ih
    · simp [aerase, h, alookup, ih]

theorem alookup_ainsert_self {β : Type} (m : List (String × β)) (k : String) (v : β) :
    alookup (ainsert m k v) k = some v := by
  induction m with
  | nil => simp [ainsert, alookup]
  | cons p rest ih =>
    by_cases h : p.1 = k
    · simp [ainsert, h, alookup]
    · simp [ainsert, h, alookup, ih]

/-- C7: for every tree and every version present in it, calcChanges(v,v)
succeeds with the empty change set: findLCA short-circuits to v itself and
both walks stop immediately at the LCA. -/
theorem calcChgs_self_empty (t : ReleaseTree) (v : String)
    (h : (alookup t.nodes v).isSome) :
    CalcChgs t v v = some (Except.ok []) := by
  obtain ⟨n, hn⟩ := Option.isSome_iff_exists.mp h
  unfold CalcChgs findLCA
  rw [hn]
  simp [chainFuel, walkTo, subPairs, goSort]

/-- C7 witness: on the fixed example tree, calcChanges("31","31") is the
empty set. -/
theorem calcChgs_self_empty_witness :
    CalcChgs exTree "31" "31" = some (Except.ok []) :=
  calcChgs_self_empty exTree "31" (by decide)

/-- C5: a failed single-node insert leaves the tree exactly as it was, and
each rejected input produces the corresponding error: duplicate version,
empty parent version while a root exists, or parent version not found. -/
theorem insertNode_failure_no_mutation (t : ReleaseTree) (i : ReleaseInput) :
    (∀ e, (InsertNode t i).1 = Except.error e → (InsertNode t i).2 = t) ∧
    ((alookup t.nodes i.ver).isSome →
      InsertNode t i = (Except.error (RTError.insertDup i.ver), t)) ∧
    (alookup t.nodes i.ver = none → i.fromVer = "" → ∀ r, t.root = some r →
      InsertNode t i = (Except.error (RTError.insertRootExists i.ver r), t)) ∧
    (alookup t.nodes i.ver = none → i.fromVer ≠ "" → alookup t.nodes i.fromVer = none →
      InsertNode t i = (Except.error (RTError.insertParentNotFound i.fromVer i.ver), t)) := by
  refine ⟨?_, ?_, ?_, ?_⟩
  · intro e he
    unfold InsertNode at he ⊢
    by_cases h1 : (alookup t.nodes i.ver).isSome = true
    · rw [if_pos h1]
    · rw [if_neg h1] at he ⊢
      by_cases h2 : i.fromVer = ""
      · rw [if_pos h2] at he ⊢
        cases hr : t.root with
        | some r => simp
        | none => rw [hr] at he; simp at he
      · rw [if_neg h2] at he ⊢
        cases hp : alookup t.nodes i.fromVer with
        | none => simp
        | some q => rw [hp] at he; simp at he
  · intro hs
    unfold InsertNode
    simp [hs]
  · intro hn hfv r hr
    unfold InsertNode
    simp [hn, hfv, hr]
  · intro hn hfv hp
    unfold InsertNode
    simp [hn, hfv, hp]

/-- C5 witness: re-inserting version 21 into the fixed example tree fails
with the duplicate error and leaves the tree unchanged. -/
theorem insertNode_failure_no_mutation_witness :
    InsertNode exTree ⟨"21", "11", []⟩ =
      (Except.error (RTError.insertDup "21"), exTree) :=
  (insertNode_failure_no_mutation exTree ⟨"21", "11", []⟩).2.1 (by decide)

/-- C9: Rebuild removes the platform entry entirely when the store reports
zero releases (a subsequent lookup finds no tree), and otherwise stores
exactly the tree NewReleaseTree constructs from the fetched releases. -/
theorem rebuild_zero_removes_nonzero_rebuilds (tm : TMState) (p : String)
    (rels : List ReleaseRow) (jiras : String → List String) :
    (rels = [] →
      Rebuild tm p rels jiras = Except.ok (aerase tm p) ∧
      alookup (aerase tm p) p = none) ∧
    (rels ≠ [] → ∀ tm', Rebuild tm p rels jiras = Except.ok tm' →
      ∃ t, NewReleaseTree (inputsOf rels jiras) = Except.ok t ∧
        alookup tm' p = some t) := by
  constructor
  · intro h
    subst h
    exact ⟨rfl, alookup_aerase_self tm p⟩
  · intro h tm' h2
    unfold Rebuild at h2
    rw [if_neg (by simpa using h)] at h2
    unfold buildTree at h2
    revert h2
    split
    · intro h2; cases h2
    · next t ht =>
      intro h2
      cases h2
      exact ⟨t, ht, alookup_ainsert_self tm p t⟩

/-- C9 witness: with one remaining release the tree is rebuilt from it, and
with none the entry disappears. -/
theorem rebuild_zero_removes_nonzero_rebuilds_witness :
    Rebuild [("p", exTree)] "p" [] (fun _ => []) = Except.ok [] ∧
    alookup (aerase [("p", exTree)] "p") "p" = none :=
  (rebuild_zero_removes_nonzero_rebuilds [("p", exTree)] "p" [] (fun _ => [])).1 rfl

/-- C10 (amended): inserting into a platform with no tree when the input's
parent version is non-empty always fails and never creates a map entry; the
error is the missing-parent construction error unless the input names itself
as parent, in which case the single-element construction resolves the parent
to the node itself and fails with the no-root error instead. -/
theorem tmInsert_missing_platform (tm : TMState) (p : String) (i : ReleaseInput)
    (hnone : alookup tm p = none) (hfv : i.fromVer ≠ "") :
    (i.fromVer ≠ i.ver →
      TMInsert tm p i = (Except.error (RTError.parentNotFoundBuild i.fromVer i.ver), tm)) ∧
    (i.fromVer = i.ver → TMInsert tm p i = (Except.error RTError.noRoot, tm)) ∧
    alookup (TMInsert tm p i).2 p = none := by
  have hpass1 : pass1 [i] [] = Except.ok [(i.ver, ⟨i.ver, i.changes, none, []⟩)] := by
    simp [pass1, alookup]
  have hbuild : ∀ e, NewReleaseTree [i] = Except.error e →
      TMInsert tm p i = (Except.error e, tm) := by
    intro e he
    unfold TMInsert
    rw [hnone, he]
  by_cases heq : i.fromVer = i.ver
  · have hnew : NewReleaseTree [i] = Except.error RTError.noRoot := by
      unfold NewReleaseTree
      rw [hpass1]
      have hl : alookup [(i.ver, (⟨i.ver, i.changes, none, []⟩ : Node))] i.fromVer =
          some ⟨i.ver, i.changes, none, []⟩ := by
        simp [alookup, heq]
      simp [pass2, hfv, hl]
    have hT := hbuild _ hnew
    exact ⟨fun hne => absurd heq hne, fun _ => hT, by rw [hT]; exact hnone⟩
  · have hnew : NewReleaseTree [i] =
        Except.error (RTError.parentNotFoundBuild i.fromVer i.ver) := by
      unfold NewReleaseTree
      rw [hpass1]
      have hl : alookup [(i.ver, (⟨i.ver, i.changes, none, []⟩ : Node))] i.fromVer = none := by
        simp only [alookup, ite_eq_right_iff]
        intro h
        exact absurd h.symm heq
      simp [pass2, hfv, hl]
    have hT := hbuild _ hnew
    exact ⟨fun _ => hT, fun h => absurd h heq, by rw [hT]; exact hnone⟩

/-- C10 witness: inserting version 2 with parent 1 for an unknown platform
fails with the missing-parent error and leaves the manager map empty. -/
theorem tmInsert_missing_platform_witness :
    TMInsert [] "ios" ⟨"2", "1", []⟩ =
      (Except.error (RTError.parentNotFoundBuild "1" "2"), ([] : TMState)) :=
  (tmInsert_missing_platform [] "ios" ⟨"2", "1", []⟩ rfl (by decide)).1 (by decide)

theorem alookup_isSome_iff_mem {β : Type} (m : List (String × β)) (k : String) :
    (alookup m k).isSome = true ↔ k ∈ akeys m := by
  induction m with
  | nil => simp [alookup, akeys]
  | cons p rest ih =>
    rw [alookup]
    by_cases h : p.1 = k
    · simp only [if_pos h, Option.isSome_some, true_iff]
      exact h ▸ List.mem_cons_self _ _
    · rw [if_neg h, ih]
      constructor
      · intro hm
        exact List.mem_cons_of_mem _ hm
      · intro hm
        rcases List.mem_cons.mp hm with h1 | h1
        · exact absurd h1.symm h
        · exact h1

theorem mem_akeys_aerase {β : Type} (m : List (String × β)) (k k' : String) :
    k' ∈ akeys (aerase m k) ↔ k' ∈ akeys m ∧ k' ≠ k := by
  induction m with
  | nil => simp [aerase, akeys]
  | cons p rest ih =>
    rw [aerase]
    by_cases h : p.1 = k
    · rw [if_pos h, ih]
      constructor
      · exact fun ⟨h1, h2⟩ => ⟨List.mem_cons_of_mem _ h1, h2⟩
      · rintro ⟨h1, h2⟩
        rcases List.mem_cons.mp h1 with h3 | h3
        · exact absurd (h3.trans h) h2
        · exact ⟨h3, h2⟩
    · rw [if_neg h]
      show k' ∈ akeys (p :: aerase rest k) ↔ _
      simp only [akeys, List.map_cons, List.mem_cons]
      rw [show (List.map (fun x => x.1) (aerase rest k)) = akeys (aerase rest k) from rfl, ih]
      rw [show (List.map (fun x => x.1) rest) = akeys rest from rfl]
      constructor
      · rintro (h1 | ⟨h1, h2⟩)
        · exact ⟨Or.inl h1, fun hk => h (h1.symm.trans hk)⟩
        · exact ⟨Or.inr h1, h2⟩
      · rintro ⟨h1 | h1, h2⟩
        · exact Or.inl h1
        · exact Or.inr ⟨h1, h2⟩

theorem mem_akeys_ainsert {β : Type} (m : List (String × β)) (k k' : String) (v : β) :
    k' ∈ akeys (ainsert m k v) ↔ k' ∈ akeys m ∨ k' = k := by
  induction m with
  | nil => simp [ainsert, akeys]
  | cons p rest ih =>
    rw [ainsert]
    by_cases h : p.1 = k
    · rw [if_pos h]
      simp only [akeys, List.map_cons, List.mem_cons]
      constructor
      · rintro (h1 | h1)
        · exact Or.inr h1
        · exact Or.inl (Or.inr h1)
      · rintro ((h1 | h1) | h1)
        · exact Or.inl (h1.trans h)
        · exact Or.inr h1
        · exact Or.inl h1
    · rw [if_neg h]
      show k' ∈ akeys (p :: ainsert rest k v) ↔ _
      simp only [akeys, List.map_cons, List.mem_cons]
      rw [show (List.map (fun x => x.1) (ainsert rest k v)) = akeys (ainsert rest k v) from rfl, ih]
      rw [show (List.map (fun x => x.1) rest) = akeys rest from rfl]
      tauto

/-- Keys present after folding a change list into the accumulator. -/
theorem mem_akeys_insfold (cs : List Chg) (m0 : List (String × Chg)) (k : String) :
    k ∈ akeys (cs.foldl (fun m' c => ainsert m' c.id c) m0) ↔
      k ∈ akeys m0 ∨ k ∈ cs.map Chg.id := by
  induction cs generalizing m0 with
  | nil => simp
  | cons c rest ih =>
    simp only [List.foldl_cons, ih, mem_akeys_ainsert, List.map_cons, List.mem_cons]
    tauto

/-- Keys present in the end-path accumulator of CalcChgs. -/
theorem mem_akeys_netfold (l : List Node) (m0 : List (String × Chg)) (k : String) :
    k ∈ akeys (l.foldl (fun m n => n.changes.foldl (fun m' c => ainsert m' c.id c) m) m0) ↔
      k ∈ akeys m0 ∨ k ∈ (l.flatMap (fun n => n.changes)).map Chg.id := by
  induction l generalizing m0 with
  | nil => simp
  | cons n rest ih =>
    simp only [List.foldl_cons, ih, mem_akeys_insfold, List.flatMap_cons, List.map_append,
      List.mem_append]
    tauto

/-- The subtraction loop fails (with some subset-violation error) exactly
when the walked change IDs either repeat or leave the accumulator's keys. -/
theorem subPairs_error_iff (sV eV : String) (ps : List (String × Chg))
    (m : List (String × Chg)) :
    (∃ i nv, subPairs sV eV ps m = Except.error (RTError.calcSubset i nv sV eV)) ↔
      ¬ ((ps.map (fun q => q.2.id)).Nodup ∧
        ∀ id ∈ ps.map (fun q => q.2.id), id ∈ akeys m) := by
  induction ps generalizing m with
  | nil =>
    simp [subPairs]
  | cons q rest ih =>
    obtain ⟨nv, c⟩ := q
    by_cases h : (alookup m c.id).isSome = true
    · have hm : c.id ∈ akeys m := (alookup_isSome_iff_mem m c.id).mp h
      rw [subPairs, if_pos h, ih]
      apply not_congr
      simp only [List.map_cons, List.nodup_cons, List.mem_cons]
      constructor
      · rintro ⟨hnd, hsub⟩
        have hni : c.id ∉ List.map (fun q => q.2.id) rest := fun hmem =>
          ((mem_akeys_aerase m c.id c.id).mp (hsub _ hmem)).2 rfl
        refine ⟨⟨hni, hnd⟩, ?_⟩
        intro x hx
        rcases hx with rfl | hx
        · exact hm
        · exact ((mem_akeys_aerase m c.id x).mp (hsub x hx)).1
      · rintro ⟨⟨hni, hnd⟩, hsub⟩
        refine ⟨hnd, ?_⟩
        intro x hx
        rw [mem_akeys_aerase]
        exact ⟨hsub x (Or.inr hx), fun hxe => hni (hxe ▸ hx)⟩
    · rw [subPairs, if_neg h]
      constructor
      · intro _ hc
        exact h ((alookup_isSome_iff_mem m c.id).mpr
          (hc.2 c.id (by simp)))
      · intro _
        exact ⟨c.id, nv, rfl⟩

/-- Every error the subtraction loop produces is a subset-violation error
whose item and node fields come from a walked (node version, change) pair. -/
theorem subPairs_error_shape (sV eV : String) (ps : List (String × Chg))
    (m : List (String × Chg)) (e : RTError)
    (he : subPairs sV eV ps m = Except.error e) :
    ∃ nv c, (nv, c) ∈ ps ∧ e = RTError.calcSubset c.id nv sV eV := by
  induction ps generalizing m with
  | nil => cases he
  | cons q rest ih =>
    obtain ⟨nv, c⟩ := q
    by_cases h : (alookup m c.id).isSome = true
    · rw [subPairs, if_pos h] at he
      obtain ⟨nv', c', hmem, hsh⟩ := ih (aerase m c.id) he
      exact ⟨nv', c', List.mem_cons_of_mem _ hmem, hsh⟩
    · rw [subPairs, if_neg h] at he
      cases he
      exact ⟨nv, c, List.mem_cons_self _ _, rfl⟩

/-- The change IDs of the flattened (node version, change) start-path pairs
are the change IDs of the start-path changes. -/
theorem pairs_ids_eq (sns : List Node) :
    (sns.flatMap (fun n => n.changes.map (fun c => (n.version, c)))).map
      (fun q => q.2.id) = (sns.flatMap (fun n => n.changes)).map Chg.id := by
  induction sns with
  | nil => rfl
  | cons n rest ih =>
    simp only [List.flatMap_cons, List.map_append, List.map_map, Function.comp_def, ih]

/-- C3: with the LCA resolved and both walks terminating, CalcChgs fails
with a subset-violation error exactly when the start-path change IDs (in
walk order) either repeat or include an ID absent from the end-path
accumulator; the error names an item and node version taken from the start
path together with both requested versions, and no change set is returned. -/
theorem calcChgs_subset_error_iff (t : ReleaseTree) (endV startV lca : String)
    (ens sns : List Node)
    (hLCA : findLCA t endV startV = some (Except.ok lca))
    (hwE : walkTo t.nodes lca (chainFuel t) (some endV) = some ens)
    (hwS : walkTo t.nodes lca (chainFuel t) (some startV) = some sns) :
    ((∃ i nv, CalcChgs t endV startV =
        some (Except.error (RTError.calcSubset i nv startV endV))) ↔
      ¬ (((sns.flatMap (fun n => n.changes)).map Chg.id).Nodup ∧
        ∀ id ∈ (sns.flatMap (fun n => n.changes)).map Chg.id,
          id ∈ (ens.flatMap (fun n => n.changes)).map Chg.id)) ∧
    (∀ i nv, CalcChgs t endV startV =
        some (Except.error (RTError.calcSubset i nv startV endV)) →
      ∃ n, n ∈ sns ∧ n.version = nv ∧ ∃ c, c ∈ n.changes ∧ c.id = i) := by
  have hps := pairs_ids_eq sns
  have hmem_net : ∀ k, k ∈ akeys (ens.foldl
      (fun m n => n.changes.foldl (fun m' c => ainsert m' c.id c) m) []) ↔
      k ∈ (ens.flatMap (fun n => n.changes)).map Chg.id := by
    intro k
    rw [mem_akeys_netfold]
    simp [akeys]
  have hcond : (((sns.flatMap (fun n => n.changes)).map Chg.id).Nodup ∧
      ∀ id ∈ (sns.flatMap (fun n => n.changes)).map Chg.id,
        id ∈ (ens.flatMap (fun n => n.changes)).map Chg.id) ↔
      (((sns.flatMap (fun n => n.changes.map (fun c => (n.version, c)))).map
          (fun q => q.2.id)).Nodup ∧
        ∀ id ∈ (sns.flatMap (fun n => n.changes.map (fun c => (n.version, c)))).map
          (fun q => q.2.id),
          id ∈ akeys (ens.foldl
            (fun m n => n.changes.foldl (fun m' c => ainsert m' c.id c) m) [])) := by
    rw [hps]
    constructor
    · rintro ⟨h1, h2⟩
      exact ⟨h1, fun id hid => (hmem_net id).mpr (h2 id hid)⟩
    · rintro ⟨h1, h2⟩
      exact ⟨h1, fun id hid => (hmem_net id).mp (h2 id hid)⟩
  cases hsub : subPairs startV endV
      (sns.flatMap (fun n => n.changes.map (fun c => (n.version, c))))
      (ens.foldl (fun m n => n.changes.foldl (fun m' c => ainsert m' c.id c) m) []) with
  | error e =>
    have hC : CalcChgs t endV startV = some (Except.error e) := by
      simp only [CalcChgs, hLCA, hwE, hwS, hsub]
    obtain ⟨nv0, c0, hmemp, rfl⟩ := subPairs_error_shape _ _ _ _ _ hsub
    constructor
    · apply iff_of_true
      · exact ⟨c0.id, nv0, hC⟩
      · rw [hcond]
        exact (subPairs_error_iff startV endV _ _).mp ⟨c0.id, nv0, hsub⟩
    · intro i nv heq
      rw [hC] at heq
      have h1 := Except.error.inj (Option.some.inj heq)
      injection h1 with e1 e2 e3 e4
      rw [List.mem_flatMap] at hmemp
      obtain ⟨n, hn, hmm⟩ := hmemp
      rw [List.mem_map] at hmm
      obtain ⟨c', hc', heq2⟩ := hmm
      rw [Prod.mk.injEq] at heq2
      obtain ⟨hv, hcc⟩ := heq2
      refine ⟨n, hn, hv.trans e2, c', hc', ?_⟩
      rw [hcc]
      exact e1
  | ok mres =>
    have hC : CalcChgs t endV startV =
        some (Except.ok (goSort goLess (mres.map (·.2)))) := by
      simp only [CalcChgs, hLCA, hwE, hwS, hsub]
    constructor
    · apply iff_of_false
      · rintro ⟨i, nv, hcontra⟩
        rw [hC] at hcontra
        simp at hcontra
      · rw [not_not, hcond]
        by_contra hfail
        obtain ⟨i, nv, hbad⟩ := (subPairs_error_iff startV endV _ _).mpr hfail
        rw [hsub] at hbad
        cases hbad
    · intro i nv heq
      rw [hC] at heq
      simp at heq

/-- The start-path node of the fixed example diff (31 vs 22). -/
def exNode22 : Node := ⟨"22", [⟨"5"⟩], some "21", ["24"]⟩

/-- The end-path node of the fixed example diff (31 vs 22). -/
def exNode31 : Node := ⟨"31", [⟨"2"⟩, ⟨"3"⟩, ⟨"4"⟩], some "21", ["32", "33"]⟩

/-- C3 witness: on the fixed example tree, the diff 31 vs 22 walks end path
[31] and start path [22]; item 5 is outside the end-path accumulator, and
the subset-violation characterisation holds at this instance. -/
theorem calcChgs_subset_error_iff_witness :
    (∃ i nv, CalcChgs exTree "31" "22" =
        some (Except.error (RTError.calcSubset i nv "22" "31"))) ↔
      ¬ ((([exNode22].flatMap (fun n => n.changes)).map Chg.id).Nodup ∧
        ∀ id ∈ ([exNode22].flatMap (fun n => n.changes)).map Chg.id,
          id ∈ ([exNode31].flatMap (fun n => n.changes)).map Chg.id) :=
  (calcChgs_subset_error_iff exTree "31" "22" "21" [exNode31] [exNode22]
    (by decide) (by decide) (by decide)).1

theorem charsLtB_trans (as : List Char) : ∀ bs cs,
    charsLtB as bs = true → charsLtB bs cs = true → charsLtB as cs = true := by
  induction as with
  | nil =>
    intro bs cs h1 h2
    cases bs with
    | nil => simp [charsLtB] at h1
    | cons b bs' =>
      cases cs with
      | nil => simp [charsLtB] at h2
      | cons c cs' => simp [charsLtB]
  | cons a as' ih =>
    intro bs cs h1 h2
    cases bs with
    | nil => simp [charsLtB] at h1
    | cons b bs' =>
      cases cs with
      | nil => simp [charsLtB] at h2
      | cons c cs' =>
        rw [charsLtB] at h1 h2 ⊢
        by_cases hab : a.toNat < b.toNat
        · by_cases hbc : b.toNat < c.toNat
          · rw [if_pos (by omega)]
          · rw [if_neg hbc] at h2
            by_cases hcb : c.toNat < b.toNat
            · rw [if_pos hcb] at h2
              cases h2
            · rw [if_neg hcb] at h2
              rw [if_pos (by omega)]
        · rw [if_neg hab] at h1
          by_cases hba : b.toNat < a.toNat
          · rw [if_pos hba] at h1
            cases h1
          · rw [if_neg hba] at h1
            by_cases hbc : b.toNat < c.toNat
            · rw [if_pos (by omega)]
            · rw [if_neg hbc] at h2
              by_cases hcb : c.toNat < b.toNat
              · rw [if_pos hcb] at h2
                cases h2
              · rw [if_neg hcb] at h2
                rw [if_neg (by omega), if_neg (by omega)]
                exact ih bs' cs' h1 h2

theorem charsLtB_trichotomy (as : List Char) : ∀ bs,
    charsLtB as bs = true ∨ as = bs ∨ charsLtB bs as = true := by
  induction as with
  | nil =>
    intro bs
    cases bs with
    | nil => exact Or.inr (Or.inl rfl)
    | cons b bs' => exact Or.inl (by simp [charsLtB])
  | cons a as' ih =>
    intro bs
    cases bs with
    | nil => exact Or.inr (Or.inr (by simp [charsLtB]))
    | cons b bs' =>
      rcases Nat.lt_trichotomy a.toNat b.toNat with h | h | h
      · exact Or.inl (by rw [charsLtB, if_pos h])
      · have hab : a = b := by
          apply Char.ext
          apply UInt32.ext
          unfold Char.toNat at h
          exact h
        subst hab
        rcases ih bs' with h1 | h1 | h1
        · refine Or.inl ?_
          rw [charsLtB, if_neg (by omega), if_neg (by omega)]
          exact h1
        · exact Or.inr (Or.inl (by rw [h1]))
        · refine Or.inr (Or.inr ?_)
          rw [charsLtB, if_neg (by omega), if_neg (by omega)]
          exact h1
      · exact Or.inr (Or.inr (by rw [charsLtB, if_pos h]))

/-- Byte-order trichotomy lifted to strings. -/
theorem strLtB_trichotomy (a b : String) :
    strLtB a b = true ∨ a = b ∨ strLtB b a = true := by
  rcases charsLtB_trichotomy a.data b.data with h | h | h
  · exact Or.inl h
  · exact Or.inr (Or.inl (congrArg String.mk h))
  · exact Or.inr (Or.inr h)

/-- Byte-order transitivity lifted to strings. -/
theorem strLtB_trans (a b c : String) :
    strLtB a b = true → strLtB b c = true → strLtB a c = true :=
  charsLtB_trans a.data b.data c.data

theorem mem_insR {α : Type} (less : α → α → Bool) (x : α) (l : List α) (a : α) :
    a ∈ insR less x l ↔ a = x ∨ a ∈ l := by
  induction l with
  | nil => simp [insR]
  | cons y rest ih =>
    rw [insR]
    by_cases h : less x y = true
    · rw [if_pos h]
      simp only [List.mem_cons, ih]
      tauto
    · rw [if_neg h]
      simp only [List.mem_cons]

theorem insR_pairwise {α : Type} (less : α → α → Bool) (P : α → Prop)
    (hasym : ∀ a b, P a → P b → less a b = true → less b a = false)
    (hneg : ∀ a b c, P a → P b → P c → less a b = false → less b c = false →
      less a c = false)
    (x : α) (hx : P x) : ∀ (acc : List α), (∀ a ∈ acc, P a) →
    acc.Pairwise (fun a b => less a b = false) →
    (insR less x acc).Pairwise (fun a b => less a b = false) := by
  intro acc
  induction acc with
  | nil =>
    intro _ _
    simp [insR]
  | cons y rest ih =>
    intro hacc hp
    have hy : P y := hacc y (List.mem_cons_self _ _)
    have hrest : ∀ a ∈ rest, P a := fun a ha => hacc a (List.mem_cons_of_mem _ ha)
    rw [List.pairwise_cons] at hp
    obtain ⟨hyr, hpr⟩ := hp
    rw [insR]
    cases hxy : less x y with
    | true =>
      rw [if_pos rfl]
      rw [List.pairwise_cons]
      refine ⟨?_, ih hrest hpr⟩
      intro b hb
      rcases (mem_insR less x rest b).mp hb with heq | hb
      · rw [heq]
        exact hasym x y hx hy hxy
      · exact hyr b hb
    | false =>
      rw [if_neg (by simp)]
      rw [List.pairwise_cons]
      refine ⟨?_, by rw [List.pairwise_cons]; exact ⟨hyr, hpr⟩⟩
      intro b hb
      rcases List.mem_cons.mp hb with rfl | hb
      · exact hxy
      · exact hneg x y b hx hy (hrest b hb) hxy (hyr b hb)

theorem mem_foldl_insR {α : Type} (less : α → α → Bool) : ∀ (l acc : List α) (a : α),
    a ∈ l.foldl (fun acc x => insR less x acc) acc ↔ a ∈ acc ∨ a ∈ l := by
  intro l
  induction l with
  | nil => simp
  | cons x rest ih =>
    intro acc a
    rw [List.foldl_cons, ih, mem_insR]
    simp only [List.mem_cons]
    tauto

/-- Membership is preserved by the embedded sort. -/
theorem mem_goSort {α : Type} (less : α → α → Bool) (l : List α) (a : α) :
    a ∈ goSort less l ↔ a ∈ l := by
  rw [goSort, List.mem_reverse, mem_foldl_insR]
  simp

/-- If the comparator restricted to `P`-elements is asymmetric and
negatively transitive, the embedded sort orders any all-`P` list so that no
later element is strictly less than an earlier one. -/
theorem goSort_pairwise {α : Type} (less : α → α → Bool) (P : α → Prop)
    (hasym : ∀ a b, P a → P b → less a b = true → less b a = false)
    (hneg : ∀ a b c, P a → P b → P c → less a b = false → less b c = false →
      less a c = false)
    (l : List α) (hl : ∀ a ∈ l, P a) :
    (goSort less l).Pairwise (fun a b => less b a = false) := by
  have key : ∀ (ll acc : List α), (∀ a ∈ ll, P a) → (∀ a ∈ acc, P a) →
      acc.Pairwise (fun a b => less a b = false) →
      (ll.foldl (fun acc x => insR less x acc) acc).Pairwise
        (fun a b => less a b = false) := by
    intro ll
    induction ll with
    | nil =>
      intro acc _ _ hp
      exact hp
    | cons x rest ih =>
      intro acc hll hacc hp
      rw [List.foldl_cons]
      refine ih (insR less x acc) (fun a ha => hll a (List.mem_cons_of_mem _ ha)) ?_ ?_
      · intro a ha
        rcases (mem_insR less x acc a).mp ha with rfl | ha
        · exact hll a (List.mem_cons_self _ _)
        · exact hacc a ha
      · exact insR_pairwise less P hasym hneg x (hll x (List.mem_cons_self _ _)) acc hacc hp
  rw [goSort, List.pairwise_reverse]
  exact key l [] hl (by simp) (by simp)

theorem charsLtB_irrefl (as : List Char) : charsLtB as as = false := by
  induction as with
  | nil => rfl
  | cons a as' ih =>
    rw [charsLtB, if_neg (by omega), if_neg (by omega)]
    exact ih

/-- Byte-order irreflexivity lifted to strings. -/
theorem strLtB_irrefl (a : String) : strLtB a a = false :=
  charsLtB_irrefl a.data

/-- Every successful CalcChgs result is the embedded sort of some list. -/
theorem calcChgs_ok_shape (t : ReleaseTree) (endV startV : String) (res : List Chg)
    (hres : CalcChgs t endV startV = some (Except.ok res)) :
    ∃ base : List Chg, res = goSort goLess base := by
  unfold CalcChgs at hres
  split at hres
  · exact absurd hres (by simp)
  · exact absurd hres (by simp)
  · split at hres
    · exact absurd hres (by simp)
    · split at hres
      · exact absurd hres (by simp)
      · simp only at hres
        split at hres
        · exact absurd hres (by simp)
        · exact ⟨_, (Except.ok.inj (Option.some.inj hres)).symm⟩

/-- C4 (amended): every successful calcChanges result whose identifiers all
parse as integers is in non-decreasing numeric order, and every result none
of whose identifiers parses is in non-decreasing byte-wise lexicographic
order.  (For mixed results the comparator is not transitive and the claimed
pairwise orders can fail; see the counterexample.) -/
theorem calcChgs_sorted_homogeneous (t : ReleaseTree) (endV startV : String)
    (res : List Chg)
    (hres : CalcChgs t endV startV = some (Except.ok res)) :
    ((∀ c ∈ res, (goAtoi c.id).isSome = true) →
      res.Pairwise (fun a b => (goAtoi a.id).getD 0 ≤ (goAtoi b.id).getD 0)) ∧
    ((∀ c ∈ res, goAtoi c.id = none) →
      res.Pairwise (fun a b => strLtB a.id b.id = true ∨ a.id = b.id)) := by
  obtain ⟨base, rfl⟩ := calcChgs_ok_shape t endV startV res hres
  constructor
  · intro hnum
    have hbase : ∀ a ∈ base, (goAtoi a.id).isSome = true := fun a ha =>
      hnum a ((mem_goSort goLess base a).mpr ha)
    have hPW := goSort_pairwise goLess (fun c => (goAtoi c.id).isSome = true)
      (by
        intro a b ha hb hab
        obtain ⟨x, hx⟩ := Option.isSome_iff_exists.mp ha
        obtain ⟨y, hy⟩ := Option.isSome_iff_exists.mp hb
        simp only [goLess, hx, hy] at hab ⊢
        rw [decide_eq_true_eq] at hab
        rw [decide_eq_false_iff_not]
        omega)
      (by
        intro a b c ha hb hc hab hbc
        obtain ⟨x, hx⟩ := Option.isSome_iff_exists.mp ha
        obtain ⟨y, hy⟩ := Option.isSome_iff_exists.mp hb
        obtain ⟨z, hz⟩ := Option.isSome_iff_exists.mp hc
        simp only [goLess, hx, hy, hz] at hab hbc ⊢
        rw [decide_eq_false_iff_not] at hab hbc
        rw [decide_eq_false_iff_not]
        omega)
      base hbase
    refine List.Pairwise.imp_of_mem ?_ hPW
    intro a b ha hb hR
    obtain ⟨x, hx⟩ := Option.isSome_iff_exists.mp (hnum a ha)
    obtain ⟨y, hy⟩ := Option.isSome_iff_exists.mp (hnum b hb)
    simp only [goLess, hx, hy] at hR
    rw [decide_eq_false_iff_not] at hR
    rw [hx, hy]
    simp only [Option.getD_some]
    omega
  · intro hnon
    have hbase : ∀ a ∈ base, goAtoi a.id = none := fun a ha =>
      hnon a ((mem_goSort goLess base a).mpr ha)
    have hPW := goSort_pairwise goLess (fun c => goAtoi c.id = none)
      (by
        intro a b ha hb hab
        simp only [goLess, ha, hb] at hab ⊢
        cases hba : strLtB b.id a.id with
        | false => rfl
        | true =>
          have := strLtB_trans a.id b.id a.id hab hba
          rw [strLtB_irrefl] at this
          cases this)
      (by
        intro a b c ha hb hc hab hbc
        simp only [goLess, ha, hb, hc] at hab hbc ⊢
        cases hac : strLtB a.id c.id with
        | false => rfl
        | true =>
          exfalso
          rcases strLtB_trichotomy a.id b.id with h1 | h1 | h1
          · rw [h1] at hab
            cases hab
          · rw [h1] at hac
            rcases strLtB_trichotomy b.id c.id with h2 | h2 | h2
            · rw [h2] at hbc
              cases hbc
            · rw [h2, strLtB_irrefl] at hac
              cases hac
            · have := strLtB_trans b.id c.id b.id hac h2
              rw [strLtB_irrefl] at this
              cases this
          · rcases strLtB_trichotomy b.id c.id with h2 | h2 | h2
            · rw [h2] at hbc
              cases hbc
            · rw [← h2] at hac
              have := strLtB_trans a.id b.id a.id hac h1
              rw [strLtB_irrefl] at this
              cases this
            · have h3 := strLtB_trans c.id b.id a.id h2 h1
              have := strLtB_trans a.id c.id a.id hac h3
              rw [strLtB_irrefl] at this
              cases this)
      base hbase
    refine List.Pairwise.imp_of_mem ?_ hPW
    intro a b ha hb hR
    simp only [goLess, hnon b hb, hnon a ha] at hR
    rcases strLtB_trichotomy a.id b.id with h1 | h1 | h1
    · exact Or.inl h1
    · exact Or.inr h1
    · rw [hR] at h1
      cases h1

/-- C4 witness: the fixed example diff 32 vs 24 yields the all-numeric
result {2,3,4,8}, which is in non-decreasing numeric order. -/
theorem calcChgs_sorted_homogeneous_witness :
    (∀ c ∈ [(⟨"2"⟩ : Chg), ⟨"3"⟩, ⟨"4"⟩, ⟨"8"⟩], (goAtoi c.id).isSome = true) ∧
    ([(⟨"2"⟩ : Chg), ⟨"3"⟩, ⟨"4"⟩, ⟨"8"⟩].Pairwise
      (fun a b => (goAtoi a.id).getD 0 ≤ (goAtoi b.id).getD 0)) :=
  ⟨by decide,
    (calcChgs_sorted_homogeneous exTree "32" "24" [⟨"2"⟩, ⟨"3"⟩, ⟨"4"⟩, ⟨"8"⟩]
      (by decide)).1 (by decide)⟩

theorem chainAux_succ_none (ns : List (String × Node)) (v : String) (f : Nat)
    (hs : stepP ns v = none) : chainAux ns (f + 1) v = some [v] := by
  simp [chainAux, hs]

theorem chainAux_succ_some (ns : List (String × Node)) (v : String) (f : Nat) (p : String)
    (hs : stepP ns v = some p) :
    chainAux ns (f + 1) v = (chainAux ns f p).map (fun l => v :: l) := by
  simp [chainAux, hs]

theorem chainAux_det (ns : List (String × Node)) :
    ∀ (f1 f2 : Nat) (v : String) (l1 l2 : List String),
    chainAux ns f1 v = some l1 → chainAux ns f2 v = some l2 → l1 = l2 := by
  intro f1
  induction f1 with
  | zero =>
    intro f2 v l1 l2 h1 _
    cases h1
  | succ f ih =>
    intro f2 v l1 l2 h1 h2
    cases f2 with
    | zero => cases h2
    | succ f2' =>
      cases hs : stepP ns v with
      | none =>
        rw [chainAux_succ_none ns v f hs] at h1
        rw [chainAux_succ_none ns v f2' hs] at h2
        cases h1
        cases h2
        rfl
      | some p =>
        rw [chainAux_succ_some ns v f p hs] at h1
        rw [chainAux_succ_some ns v f2' p hs] at h2
        cases hc1 : chainAux ns f p with
        | none => rw [hc1] at h1; cases h1
        | some lp1 =>
          cases hc2 : chainAux ns f2' p with
          | none => rw [hc2] at h2; cases h2
          | some lp2 =>
            rw [hc1] at h1
            rw [hc2] at h2
            simp only [Option.map_some'] at h1 h2
            cases h1
            cases h2
            rw [ih f2' p lp1 lp2 hc1 hc2]

theorem chainAux_head (ns : List (String × Node)) (f : Nat) (v : String) (l : List String)
    (h : chainAux ns f v = some l) : ∃ l', l = v :: l' := by
  cases f with
  | zero => cases h
  | succ f' =>
    cases hs : stepP ns v with
    | none =>
      rw [chainAux_succ_none ns v f' hs] at h
      cases h
      exact ⟨[], rfl⟩
    | some p =>
      rw [chainAux_succ_some ns v f' p hs] at h
      cases hc : chainAux ns f' p with
      | none => rw [hc] at h; cases h
      | some lp =>
        rw [hc] at h
        simp only [Option.map_some'] at h
        cases h
        exact ⟨lp, rfl⟩

theorem chainAux_mem_suffix (ns : List (String × Node)) :
    ∀ (f : Nat) (v : String) (l : List String) (x : String),
    chainAux ns f v = some l → x ∈ l →
    ∃ fx lx, chainAux ns fx x = some lx ∧ lx <:+ l := by
  intro f
  induction f with
  | zero =>
    intro v l x h _
    cases h
  | succ f' ih =>
    intro v l x h hx
    cases hs : stepP ns v with
    | none =>
      rw [chainAux_succ_none ns v f' hs] at h
      cases h
      rcases List.mem_singleton.mp hx with rfl
      exact ⟨f' + 1, [x], chainAux_succ_none ns x f' hs, List.suffix_refl _⟩
    | some p =>
      rw [chainAux_succ_some ns v f' p hs] at h
      cases hc : chainAux ns f' p with
      | none => rw [hc] at h; cases h
      | some lp =>
        rw [hc] at h
        simp only [Option.map_some'] at h
        cases h
        rcases List.mem_cons.mp hx with rfl | hx'
        · refine ⟨f' + 1, x :: lp, ?_, List.suffix_refl _⟩
          rw [chainAux_succ_some ns x f' p hs, hc]
          rfl
        · obtain ⟨fx, lx, hcx, hsuf⟩ := ih p lp x hc hx'
          exact ⟨fx, lx, hcx, hsuf.trans (List.suffix_cons v lp)⟩

theorem chainAux_nodup (ns : List (String × Node)) :
    ∀ (f : Nat) (v : String) (l : List String),
    chainAux ns f v = some l → l.Nodup := by
  intro f
  induction f with
  | zero =>
    intro v l h
    cases h
  | succ f' ih =>
    intro v l h
    have horig := h
    cases hs : stepP ns v with
    | none =>
      rw [chainAux_succ_none ns v f' hs] at h
      cases h
      exact List.nodup_singleton v
    | some p =>
      rw [chainAux_succ_some ns v f' p hs] at h
      cases hc : chainAux ns f' p with
      | none => rw [hc] at h; cases h
      | some lp =>
        rw [hc] at h
        simp only [Option.map_some'] at h
        cases h
        rw [List.nodup_cons]
        refine ⟨?_, ih p lp hc⟩
        intro hvmem
        obtain ⟨fx, lx, hcx, hsuf⟩ := chainAux_mem_suffix ns f' p lp v hc hvmem
        have hlx : lx = v :: lp := chainAux_det ns fx (f' + 1) v lx (v :: lp) hcx horig
        rw [hlx] at hsuf
        have := hsuf.length_le
        simp at this

theorem suffix_total {α : Type} : ∀ (l s1 s2 : List α),
    s1 <:+ l → s2 <:+ l → s1 <:+ s2 ∨ s2 <:+ s1 := by
  intro l
  induction l with
  | nil =>
    intro s1 s2 h1 h2
    rw [List.suffix_nil] at h1 h2
    rw [h1, h2]
    exact Or.inl (List.suffix_refl _)
  | cons a rest ih =>
    intro s1 s2 h1 h2
    rcases List.suffix_cons_iff.mp h1 with rfl | h1'
    · exact Or.inr h2
    · rcases List.suffix_cons_iff.mp h2 with rfl | h2'
      · exact Or.inl h1
      · exact ih s1 s2 h1' h2'

theorem suffix_same_head_aux {α : Type} (x : α) (t1 t2 : List α)
    (hnd : (x :: t2).Nodup) (h : x :: t1 <:+ x :: t2) : x :: t1 = x :: t2 := by
  rcases List.suffix_cons_iff.mp h with heq | h'
  · exact heq
  · exact absurd (h'.sublist.mem (List.mem_cons_self x t1)) (List.nodup_cons.mp hnd).1

theorem suffix_same_head_eq {α : Type} (l : List α) (hl : l.Nodup) (x : α)
    (t1 t2 : List α) (h1 : x :: t1 <:+ l) (h2 : x :: t2 <:+ l) : x :: t1 = x :: t2 := by
  rcases suffix_total l _ _ h1 h2 with h | h
  · exact suffix_same_head_aux x t1 t2 (h2.sublist.nodup hl) h
  · exact (suffix_same_head_aux x t2 t1 (h1.sublist.nodup hl) h).symm

theorem find?_split {α : Type} (p : α → Bool) : ∀ (l : List α) (c : α),
    l.find? p = some c →
    ∃ l1 l2, l = l1 ++ c :: l2 ∧ (∀ x ∈ l1, p x = false) := by
  intro l
  induction l with
  | nil =>
    intro c h
    cases h
  | cons a rest ih =>
    intro c h
    rw [List.find?_cons] at h
    cases hp : p a with
    | true =>
      rw [hp] at h
      cases h
      exact ⟨[], rest, rfl, by simp⟩
    | false =>
      rw [hp] at h
      obtain ⟨l1, l2, heq, hall⟩ := ih c h
      refine ⟨a :: l1, l2, by rw [heq]; rfl, ?_⟩
      intro x hx
      rcases List.mem_cons.mp hx with rfl | hx'
      · exact hp
      · exact hall x hx'

theorem chainAux_length_le (ns : List (String × Node)) :
    ∀ (f : Nat) (v : String) (l : List String),
    chainAux ns f v = some l → l.length ≤ f := by
  intro f
  induction f with
  | zero =>
    intro v l h
    cases h
  | succ f' ih =>
    intro v l h
    cases hs : stepP ns v with
    | none =>
      rw [chainAux_succ_none ns v f' hs] at h
      cases h
      simp
    | some p =>
      rw [chainAux_succ_some ns v f' p hs] at h
      cases hc : chainAux ns f' p with
      | none => rw [hc] at h; cases h
      | some lp =>
        rw [hc] at h
        simp only [Option.map_some'] at h
        cases h
        have := ih p lp hc
        simp only [List.length_cons]
        omega

theorem chainAux_mono (ns : List (String × Node)) :
    ∀ (f : Nat) (v : String) (l : List String) (f' : Nat),
    chainAux ns f v = some l → l.length ≤ f' → chainAux ns f' v = some l := by
  intro f
  induction f with
  | zero =>
    intro v l f' h _
    cases h
  | succ f0 ih =>
    intro v l f' h hlen
    cases hs : stepP ns v with
    | none =>
      rw [chainAux_succ_none ns v f0 hs] at h
      cases h
      cases f' with
      | zero => simp at hlen
      | succ f'' => exact chainAux_succ_none ns v f'' hs
    | some p =>
      rw [chainAux_succ_some ns v f0 p hs] at h
      cases hc : chainAux ns f0 p with
      | none => rw [hc] at h; cases h
      | some lp =>
        rw [hc] at h
        simp only [Option.map_some'] at h
        cases h
        cases f' with
        | zero => simp at hlen
        | succ f'' =>
          rw [chainAux_succ_some ns v f'' p hs,
            ih p lp f'' hc (by simp only [List.length_cons] at hlen; omega)]
          rfl

/-- Every member of an ancestor chain has its own chain, a suffix of it. -/
theorem chain_of_mem (t : ReleaseTree) (v x : String) (l : List String)
    (h : chain t v = some l) (hx : x ∈ l) :
    ∃ lx, chain t x = some lx ∧ lx <:+ l := by
  obtain ⟨fx, lx, hcx, hsuf⟩ := chainAux_mem_suffix t.nodes (chainFuel t) v l x h hx
  refine ⟨lx, ?_, hsuf⟩
  exact chainAux_mono t.nodes fx x lx (chainFuel t) hcx
    (le_trans hsuf.length_le (chainAux_length_le t.nodes (chainFuel t) v l h))

theorem chain_head_mem (t : ReleaseTree) (v : String) (l : List String)
    (h : chain t v = some l) : v ∈ l := by
  obtain ⟨l', rfl⟩ := chainAux_head t.nodes (chainFuel t) v l h
  exact List.mem_cons_self _ _

/-- The first node of one terminating ancestor chain lying on the other is
the same from either side: parent chains that meet coincide afterwards, so
the first common node is symmetric. -/
theorem chain_find_comm (t : ReleaseTree) (a b : String) (A B : List String)
    (hA : chain t a = some A) (hB : chain t b = some B) :
    B.find? (fun y => decide (y ∈ A)) = A.find? (fun x => decide (x ∈ B)) := by
  have hAnd : A.Nodup := chainAux_nodup t.nodes (chainFuel t) a A hA
  have hBnd : B.Nodup := chainAux_nodup t.nodes (chainFuel t) b B hB
  cases hc : B.find? (fun y => decide (y ∈ A)) with
  | none =>
    cases hd : A.find? (fun x => decide (x ∈ B)) with
    | none => rfl
    | some d =>
      exfalso
      have hdA : d ∈ A := List.mem_of_find?_eq_some hd
      have hdB : d ∈ B := (by have h9 := List.find?_some hd; simpa using h9)
      exact (List.find?_eq_none.mp hc d hdB) (by simpa using hdA)
  | some c =>
    have hcB : c ∈ B := List.mem_of_find?_eq_some hc
    have hcA : c ∈ A := (by have h9 := List.find?_some hc; simpa using h9)
    cases hd : A.find? (fun x => decide (x ∈ B)) with
    | none =>
      exfalso
      exact (List.find?_eq_none.mp hd c hcA) (by simpa using hcB)
    | some d =>
      have hdA : d ∈ A := List.mem_of_find?_eq_some hd
      have hdB : d ∈ B := (by have h9 := List.find?_some hd; simpa using h9)
      obtain ⟨Cc, hCcChain, hCcA⟩ := chain_of_mem t a c A hA hcA
      obtain ⟨Cc', hCc'Chain, hCcB⟩ := chain_of_mem t b c B hB hcB
      have heqc : Cc' = Cc :=
        chainAux_det t.nodes (chainFuel t) (chainFuel t) c Cc' Cc hCc'Chain hCcChain
      rw [heqc] at hCcB
      obtain ⟨Cd, hCdChain, hCdA⟩ := chain_of_mem t a d A hA hdA
      obtain ⟨Cd', hCd'Chain, hCdB⟩ := chain_of_mem t b d B hB hdB
      have heqd : Cd' = Cd :=
        chainAux_det t.nodes (chainFuel t) (chainFuel t) d Cd' Cd hCd'Chain hCdChain
      rw [heqd] at hCdB
      obtain ⟨Cct, hCct⟩ := chainAux_head t.nodes (chainFuel t) c Cc hCcChain
      obtain ⟨Cdt, hCdt⟩ := chainAux_head t.nodes (chainFuel t) d Cd hCdChain
      obtain ⟨B1, B2, hBeq, hB1⟩ := find?_split _ B c hc
      obtain ⟨A1, A2, hAeq, hA1⟩ := find?_split _ A d hd
      have hCcB2 : Cc = c :: B2 := by
        rw [hCct] at hCcB ⊢
        exact suffix_same_head_eq B hBnd c Cct B2 hCcB ⟨B1, hBeq.symm⟩
      have hCdA2 : Cd = d :: A2 := by
        rw [hCdt] at hCdA ⊢
        exact suffix_same_head_eq A hAnd d Cdt A2 hCdA ⟨A1, hAeq.symm⟩
      have hdCc : d ∈ Cc := by
        rw [hCcB2]
        rw [hBeq] at hdB
        rcases List.mem_append.mp hdB with h1 | h1
        · exact absurd hdA (of_decide_eq_false (hB1 d h1))
        · exact h1
      have hcCd : c ∈ Cd := by
        rw [hCdA2]
        rw [hAeq] at hcA
        rcases List.mem_append.mp hcA with h1 | h1
        · exact absurd hcB (of_decide_eq_false (hA1 c h1))
        · exact h1
      obtain ⟨Cd2, hCd2Chain, hCd2Cc⟩ := chain_of_mem t c d Cc hCcChain hdCc
      have h1 : Cd2 = Cd :=
        chainAux_det t.nodes (chainFuel t) (chainFuel t) d Cd2 Cd hCd2Chain hCdChain
      rw [h1] at hCd2Cc
      obtain ⟨Cc2, hCc2Chain, hCc2Cd⟩ := chain_of_mem t d c Cd hCdChain hcCd
      have h2 : Cc2 = Cc :=
        chainAux_det t.nodes (chainFuel t) (chainFuel t) c Cc2 Cc hCc2Chain hCcChain
      rw [h2] at hCc2Cd
      have hCcCd : Cc = Cd :=
        hCc2Cd.eq_of_length (le_antisymm hCc2Cd.length_le hCd2Cc.length_le)
      rw [hCcB2, hCdA2] at hCcCd
      injection hCcCd with hcd _
      rw [hcd]

/-- With both versions present and both ancestor walks terminating, findLCA
reduces to the first node of the second chain lying on the first. -/
theorem findLCA_eq_of (t : ReleaseTree) (a b : String) (na nb : Node)
    (A B : List String)
    (hna : alookup t.nodes a = some na) (hnb : alookup t.nodes b = some nb)
    (hab : a ≠ b) (hA : chain t a = some A) (hB : chain t b = some B) :
    findLCA t a b = (match B.find? (fun y => decide (y ∈ A)) with
      | some c => some (Except.ok c)
      | none => some (Except.error (RTError.lcaNoCommonAncestor a b))) := by
  simp only [findLCA, hna, hnb, hA, hB, if_neg hab]

/-- C6: findLCA is symmetric — for present versions with terminating
ancestor walks, both orders return the same version or both fail. -/
theorem findLCA_symm (t : ReleaseTree) (a b : String)
    (ha : (alookup t.nodes a).isSome = true) (hb : (alookup t.nodes b).isSome = true)
    (hca : (chain t a).isSome = true) (hcb : (chain t b).isSome = true) :
    (∃ v, findLCA t a b = some (Except.ok v) ∧ findLCA t b a = some (Except.ok v)) ∨
    (∃ e1 e2, findLCA t a b = some (Except.error e1) ∧
      findLCA t b a = some (Except.error e2)) := by
  obtain ⟨na, hna⟩ := Option.isSome_iff_exists.mp ha
  obtain ⟨nb, hnb⟩ := Option.isSome_iff_exists.mp hb
  obtain ⟨A, hA⟩ := Option.isSome_iff_exists.mp hca
  obtain ⟨B, hB⟩ := Option.isSome_iff_exists.mp hcb
  by_cases hab : a = b
  · subst hab
    have hself : findLCA t a a = some (Except.ok a) := by
      simp [findLCA, hna]
    exact Or.inl ⟨a, hself, hself⟩
  · have h1 := findLCA_eq_of t a b na nb A B hna hnb hab hA hB
    have h2 := findLCA_eq_of t b a nb na B A hnb hna (Ne.symm hab) hB hA
    rw [chain_find_comm t a b A B hA hB] at h1
    cases hfind : A.find? (fun x => decide (x ∈ B)) with
    | some c =>
      simp only [hfind] at h1 h2
      exact Or.inl ⟨c, h1, h2⟩
    | none =>
      simp only [hfind] at h1 h2
      exact Or.inr ⟨_, _, h1, h2⟩

/-- C6 witness: on the fixed example tree the LCA of 32 and 24 is the same
version in both argument orders. -/
theorem findLCA_symm_witness :
    (∃ v, findLCA exTree "32" "24" = some (Except.ok v) ∧
      findLCA exTree "24" "32" = some (Except.ok v)) ∨
    (∃ e1 e2, findLCA exTree "32" "24" = some (Except.error e1) ∧
      findLCA exTree "24" "32" = some (Except.error e2)) :=
  findLCA_symm exTree "32" "24" (by decide) (by decide) (by decide) (by decide)

/-- C8: when the two present versions' terminating ancestor chains share no
node, findLCA fails with the internal-consistency error; and any version it
does return lies on both ancestor chains (it is a common ancestor). -/
theorem findLCA_no_common (t : ReleaseTree) (a b : String) (A B : List String)
    (ha : (alookup t.nodes a).isSome = true) (hb : (alookup t.nodes b).isSome = true)
    (hA : chain t a = some A) (hB : chain t b = some B) :
    ((∀ x ∈ A, x ∉ B) →
      findLCA t a b = some (Except.error (RTError.lcaNoCommonAncestor a b))) ∧
    (∀ c, findLCA t a b = some (Except.ok c) → c ∈ A ∧ c ∈ B) := by
  obtain ⟨na, hna⟩ := Option.isSome_iff_exists.mp ha
  obtain ⟨nb, hnb⟩ := Option.isSome_iff_exists.mp hb
  have haA : a ∈ A := chain_head_mem t a A hA
  have hbB : b ∈ B := chain_head_mem t b B hB
  constructor
  · intro hdis
    have hab : a ≠ b := by
      rintro rfl
      exact hdis a haA hbB
    have h1 := findLCA_eq_of t a b na nb A B hna hnb hab hA hB
    have hfind : B.find? (fun y => decide (y ∈ A)) = none := by
      rw [List.find?_eq_none]
      intro y hy
      simp only [decide_eq_true_eq]
      intro hyA
      exact hdis y hyA hy
    simp only [hfind] at h1
    exact h1
  · intro c hc
    by_cases hab : a = b
    · subst hab
      have hself : findLCA t a a = some (Except.ok a) := by
        simp [findLCA, hna]
      rw [hself] at hc
      have hca : a = c := Except.ok.inj (Option.some.inj hc)
      exact ⟨hca ▸ haA, hca ▸ hbB⟩
    · have h1 := findLCA_eq_of t a b na nb A B hna hnb hab hA hB
      cases hfind : B.find? (fun y => decide (y ∈ A)) with
      | none =>
        simp only [hfind] at h1
        rw [h1] at hc
        simp at hc
      | some c' =>
        simp only [hfind] at h1
        rw [h1] at hc
        have hcc : c' = c := Except.ok.inj (Option.some.inj hc)
        subst hcc
        refine ⟨?_, List.mem_of_find?_eq_some hfind⟩
        have h9 := List.find?_some hfind
        simpa using h9

/-- C8 witness: the silently constructed two-root tree is disconnected; the
chains of a and b are the disjoint singletons, and findLCA(a,b) fails with
the internal-consistency error. -/
theorem findLCA_no_common_witness :
    (∀ x ∈ ["a"], x ∉ ["b"]) ∧
    findLCA twoRootTree "a" "b" =
      some (Except.error (RTError.lcaNoCommonAncestor "a" "b")) :=
  ⟨by decide,
    (findLCA_no_common twoRootTree "a" "b" ["a"] ["b"]
      (by decide) (by decide) (by decide) (by decide)).1 (by decide)⟩

/-- The parentless keys of a raw node arena. -/
def pkeys (m : List (String × Node)) : List String :=
  (m.filter (fun p => p.2.parent.isNone)).map (·.1)

theorem parentlessKeys_eq (t : ReleaseTree) : parentlessKeys t = pkeys t.nodes := rfl

theorem akeys_aupdate (m : List (String × Node)) (k : String) (f : Node → Node) :
    akeys (aupdate m k f) = akeys m := by
  unfold akeys aupdate
  rw [List.map_map]
  apply List.map_congr_left
  intro x _
  by_cases h : x.1 = k <;> simp [h]

theorem pkeys_aupdate_preserve (m : List (String × Node)) (k : String) (f : Node → Node)
    (hf : ∀ n, (f n).parent = n.parent) :
    pkeys (aupdate m k f) = pkeys m := by
  unfold pkeys aupdate
  rw [List.filter_map, List.map_map]
  have h1 : ∀ a ∈ m, ((fun p : String × Node => p.2.parent.isNone) ∘
      (fun p : String × Node => if p.1 = k then (p.1, f p.2) else p)) a =
      (fun p : String × Node => p.2.parent.isNone) a := by
    intro a _
    by_cases h : a.1 = k <;> simp [h, hf]
  rw [List.filter_congr h1]
  apply List.map_congr_left
  intro a _
  by_cases h : a.1 = k <;> simp [h]

theorem mem_pkeys_aupdate_parent (m : List (String × Node)) (k q : String) :
    ∀ x ∈ pkeys (aupdate m k (fun n => { n with parent := some q })),
      x ∈ pkeys m ∧ x ≠ k := by
  intro x hx
  unfold pkeys aupdate at hx
  rw [List.filter_map, List.map_map, List.mem_map] at hx
  obtain ⟨a, ha, rfl⟩ := hx
  rw [List.mem_filter] at ha
  obtain ⟨ham, hpred⟩ := ha
  by_cases h : a.1 = k
  · exfalso
    revert hpred
    simp [h]
  · refine ⟨?_, by simp [h]⟩
    unfold pkeys
    rw [List.mem_map]
    refine ⟨a, List.mem_filter.mpr ⟨ham, by simpa [h] using hpred⟩, by simp [h]⟩

theorem akeys_append_single (m : List (String × Node)) (k : String) (n : Node) :
    akeys (m ++ [(k, n)]) = akeys m ++ [k] := by
  simp [akeys]

theorem pkeys_append_single (m : List (String × Node)) (k : String) (n : Node) :
    pkeys (m ++ [(k, n)]) = pkeys m ++ (if n.parent.isNone then [k] else []) := by
  unfold pkeys
  rw [List.filter_append, List.map_append]
  congr 1
  cases hn : n.parent.isNone <;> simp [List.filter_cons, hn]

/-- Parentless keys are a sublist of the keys. -/
theorem pkeys_sublist_akeys (m : List (String × Node)) : List.Sublist (pkeys m) (akeys m) := by
  unfold pkeys akeys
  exact (List.filter_sublist m).map (·.1)

theorem nodup_all_eq_length_le_one {α : Type} (l : List α) (e : α)
    (hnd : l.Nodup) (hall : ∀ x ∈ l, x = e) : l.length ≤ 1 := by
  cases l with
  | nil => simp
  | cons x xs =>
    have hx : x = e := hall x (List.mem_cons_self _ _)
    have hxs : xs = [] := by
      rw [List.eq_nil_iff_forall_not_mem]
      intro y hy
      have hy' : y = e := hall y (List.mem_cons_of_mem _ hy)
      rw [List.nodup_cons] at hnd
      exact hnd.1 (by rw [hx, ← hy']; exact hy)
    rw [hxs]
    simp

theorem pass2_cons_empty (i : ReleaseInput) (rest : List ReleaseInput)
    (ns : List (String × Node)) (root : Option String) (fr : Nat)
    (hfv : i.fromVer = "") :
    pass2 (i :: rest) (ns, root, fr) =
      pass2 rest (ns, (match root with | none => some i.ver | some r => some r), fr + 1) := by
  simp [pass2, hfv]

theorem pass2_cons_parent_none (i : ReleaseInput) (rest : List ReleaseInput)
    (ns : List (String × Node)) (root : Option String) (fr : Nat)
    (hfv : ¬ i.fromVer = "") (hp : alookup ns i.fromVer = none) :
    pass2 (i :: rest) (ns, root, fr) =
      Except.error (RTError.parentNotFoundBuild i.fromVer i.ver) := by
  simp [pass2, hfv, hp]

theorem pass2_cons_parent_some (i : ReleaseInput) (rest : List ReleaseInput)
    (ns : List (String × Node)) (root : Option String) (fr : Nat) (pn : Node)
    (hfv : ¬ i.fromVer = "") (hp : alookup ns i.fromVer = some pn) :
    pass2 (i :: rest) (ns, root, fr) =
      pass2 rest
        (aupdate (aupdate ns i.ver (fun n => { n with parent := some i.fromVer }))
          i.fromVer (fun n => { n with children := n.children ++ [i.ver] }), root, fr) := by
  simp [pass2, hfv, hp]

theorem pass1_keys (inputs : List ReleaseInput) :
    ∀ (acc ns : List (String × Node)), pass1 inputs acc = Except.ok ns →
    akeys ns = akeys acc ++ inputs.map (·.ver) := by
  induction inputs with
  | nil =>
    intro acc ns h
    cases h
    simp
  | cons i rest ih =>
    intro acc ns h
    rw [pass1] at h
    by_cases hl : (alookup acc i.ver).isSome = true
    · rw [if_pos hl] at h
      cases h
    · rw [if_neg hl] at h
      rw [ih _ _ h, akeys_append_single]
      simp

theorem pass1_keys_nodup (inputs : List ReleaseInput) :
    ∀ (acc ns : List (String × Node)), pass1 inputs acc = Except.ok ns →
    (akeys acc).Nodup → (akeys ns).Nodup := by
  induction inputs with
  | nil =>
    intro acc ns h hnd
    cases h
    exact hnd
  | cons i rest ih =>
    intro acc ns h hnd
    rw [pass1] at h
    by_cases hl : (alookup acc i.ver).isSome = true
    · rw [if_pos hl] at h
      cases h
    · rw [if_neg hl] at h
      refine ih _ _ h ?_
      rw [akeys_append_single, List.nodup_append]
      refine ⟨hnd, List.nodup_singleton _, ?_⟩
      intro a ha hb
      rw [List.mem_singleton] at hb
      subst hb
      exact hl ((alookup_isSome_iff_mem _ _).mpr ha)

theorem pass1_parent_none (inputs : List ReleaseInput) :
    ∀ (acc ns : List (String × Node)), pass1 inputs acc = Except.ok ns →
    (∀ p ∈ acc, p.2.parent = none) → ∀ p ∈ ns, p.2.parent = none := by
  induction inputs with
  | nil =>
    intro acc ns h hall
    cases h
    exact hall
  | cons i rest ih =>
    intro acc ns h hall
    rw [pass1] at h
    by_cases hl : (alookup acc i.ver).isSome = true
    · rw [if_pos hl] at h
      cases h
    · rw [if_neg hl] at h
      refine ih _ _ h ?_
      intro p hp
      rcases List.mem_append.mp hp with h1 | h1
      · exact hall p h1
      · rw [List.mem_singleton] at h1
        rw [h1]

theorem pass2_keys (L : List ReleaseInput) :
    ∀ (ns : List (String × Node)) (root : Option String) (fr : Nat)
      (ns' : List (String × Node)) (root' : Option String) (fr' : Nat),
    pass2 L (ns, root, fr) = Except.ok (ns', root', fr') → akeys ns' = akeys ns := by
  induction L with
  | nil =>
    intro ns root fr ns' root' fr' h
    cases h
    rfl
  | cons i rest ih =>
    intro ns root fr ns' root' fr' h
    by_cases hfv : i.fromVer = ""
    · rw [pass2_cons_empty i rest ns root fr hfv] at h
      exact ih _ _ _ _ _ _ h
    · cases hp : alookup ns i.fromVer with
      | none =>
        rw [pass2_cons_parent_none i rest ns root fr hfv hp] at h
        cases h
      | some pn =>
        rw [pass2_cons_parent_some i rest ns root fr pn hfv hp] at h
        rw [ih _ _ _ _ _ _ h, akeys_aupdate, akeys_aupdate]

theorem pass2_pkeys (L : List ReleaseInput) :
    ∀ (ns : List (String × Node)) (root : Option String) (fr : Nat)
      (ns' : List (String × Node)) (root' : Option String) (fr' : Nat),
    pass2 L (ns, root, fr) = Except.ok (ns', root', fr') →
    ∀ x ∈ pkeys ns', x ∈ pkeys ns ∧ (∀ i ∈ L, i.ver = x → i.fromVer = "") := by
  induction L with
  | nil =>
    intro ns root fr ns' root' fr' h x hx
    cases h
    exact ⟨hx, by simp⟩
  | cons i rest ih =>
    intro ns root fr ns' root' fr' h x hx
    by_cases hfv : i.fromVer = ""
    · rw [pass2_cons_empty i rest ns root fr hfv] at h
      obtain ⟨hmem, hrest⟩ := ih _ _ _ _ _ _ h x hx
      refine ⟨hmem, ?_⟩
      intro j hj hjv
      rcases List.mem_cons.mp hj with rfl | hj'
      · exact hfv
      · exact hrest j hj' hjv
    · cases hp : alookup ns i.fromVer with
      | none =>
        rw [pass2_cons_parent_none i rest ns root fr hfv hp] at h
        cases h
      | some pn =>
        rw [pass2_cons_parent_some i rest ns root fr pn hfv hp] at h
        obtain ⟨hmem, hrest⟩ := ih _ _ _ _ _ _ h x hx
        rw [pkeys_aupdate_preserve
          (aupdate ns i.ver (fun n => { n with parent := some i.fromVer }))
          i.fromVer (fun n => { n with children := n.children ++ [i.ver] })
          (fun n => rfl)] at hmem
        obtain ⟨hmem', hne⟩ := mem_pkeys_aupdate_parent _ _ _ x hmem
        refine ⟨hmem', ?_⟩
        intro j hj hjv
        rcases List.mem_cons.mp hj with rfl | hj'
        · exact absurd hjv.symm hne
        · exact hrest j hj' hjv

theorem newReleaseTree_ok_structure (inputs : List ReleaseInput) (t : ReleaseTree)
    (h : NewReleaseTree inputs = Except.ok t) :
    ∃ ns fr, pass1 inputs [] = Except.ok ns ∧
      pass2 inputs (ns, none, 0) = Except.ok (t.nodes, t.root, fr) ∧
      ¬(0 < inputs.length ∧ t.root = none) := by
  unfold NewReleaseTree at h
  split at h
  · cases h
  · next ns h1 =>
    split at h
    · cases h
    · next ns' root fr h2 =>
      split at h
      · split at h
        · cases h
        · cases h
      · next hcond =>
        cases h
        exact ⟨ns, fr, h1, h2, hcond⟩

theorem newReleaseTree_INV (inputs : List ReleaseInput) (t : ReleaseTree)
    (hc : countEmptyFrom inputs ≤ 1) (h : NewReleaseTree inputs = Except.ok t) :
    (akeys t.nodes).Nodup ∧ (t.root = none → pkeys t.nodes = []) ∧
      (pkeys t.nodes).length ≤ 1 := by
  obtain ⟨ns, fr, h1, h2, hcond⟩ := newReleaseTree_ok_structure inputs t h
  have hkeysns : akeys ns = inputs.map (·.ver) := by
    have := pass1_keys inputs [] ns h1
    simpa [akeys] using this
  have hnodupns : (akeys ns).Nodup := pass1_keys_nodup inputs [] ns h1 (by simp [akeys])
  have hkeys' : akeys t.nodes = akeys ns := pass2_keys inputs ns none 0 t.nodes t.root fr h2
  have hnodup : (akeys t.nodes).Nodup := by rw [hkeys']; exact hnodupns
  refine ⟨hnodup, ?_, ?_⟩
  · intro hroot
    have hlen0 : ¬ 0 < inputs.length := fun hl => hcond ⟨hl, hroot⟩
    have hinputs : inputs = [] := by
      cases inputs with
      | nil => rfl
      | cons a b => exact absurd (by simp) hlen0
    subst hinputs
    have h3 : ([] : List (String × Node)) = ns := Except.ok.inj h1
    subst h3
    have h4 : (([] : List (String × Node)), (none : Option String), (0 : Nat)) =
        (t.nodes, t.root, fr) := Except.ok.inj h2
    have h5 : ([] : List (String × Node)) = t.nodes := congrArg Prod.fst h4
    rw [← h5]
    rfl
  · have hE : ∀ x ∈ pkeys t.nodes,
        x ∈ (inputs.filter (fun i => i.fromVer = "")).map (·.ver) := by
      intro x hx
      obtain ⟨hmem, hprop⟩ := pass2_pkeys inputs ns none 0 t.nodes t.root fr h2 x hx
      have hxk : x ∈ akeys ns := (pkeys_sublist_akeys ns).subset hmem
      rw [hkeysns, List.mem_map] at hxk
      obtain ⟨i, hi, hiv⟩ := hxk
      rw [List.mem_map]
      exact ⟨i, List.mem_filter.mpr ⟨hi, by simp [hprop i hi hiv]⟩, hiv⟩
    have hnd : (pkeys t.nodes).Nodup := (pkeys_sublist_akeys t.nodes).nodup hnodup
    have hlenE : ((inputs.filter (fun i => i.fromVer = "")).map (·.ver)).length ≤ 1 := by
      rw [List.length_map]
      exact hc
    cases hEform : (inputs.filter (fun i => i.fromVer = "")).map (·.ver) with
    | nil =>
      have hempty : pkeys t.nodes = [] := by
        rw [List.eq_nil_iff_forall_not_mem]
        intro x hx
        have hmem := hE x hx
        rw [hEform] at hmem
        cases hmem
      rw [hempty]
      simp
    | cons e rest =>
      have hrest : rest = [] := by
        rw [hEform] at hlenE
        cases rest with
        | nil => rfl
        | cons a b => simp at hlenE
      subst hrest
      refine nodup_all_eq_length_le_one _ e hnd ?_
      intro x hx
      have hmem := hE x hx
      rw [hEform] at hmem
      simpa using hmem

theorem insertNode_preserves_INV (t : ReleaseTree) (i : ReleaseInput)
    (h1 : (akeys t.nodes).Nodup) (h2 : t.root = none → pkeys t.nodes = [])
    (h3 : (pkeys t.nodes).length ≤ 1) :
    (akeys (InsertNode t i).2.nodes).Nodup ∧
    ((InsertNode t i).2.root = none → pkeys (InsertNode t i).2.nodes = []) ∧
    (pkeys (InsertNode t i).2.nodes).length ≤ 1 := by
  by_cases hd : (alookup t.nodes i.ver).isSome = true
  · have he : InsertNode t i = (Except.error (RTError.insertDup i.ver), t) := by
      unfold InsertNode
      rw [if_pos hd]
    rw [he]
    exact ⟨h1, h2, h3⟩
  · have hver : i.ver ∉ akeys t.nodes := fun hm =>
      hd ((alookup_isSome_iff_mem _ _).mpr hm)
    have hnodupapp : ∀ n : Node, (akeys (t.nodes ++ [(i.ver, n)])).Nodup := by
      intro n
      rw [akeys_append_single, List.nodup_append]
      refine ⟨h1, List.nodup_singleton _, ?_⟩
      intro a ha hb
      rw [List.mem_singleton] at hb
      subst hb
      exact hver ha
    by_cases hfv : i.fromVer = ""
    · cases hr : t.root with
      | some r =>
        have he : InsertNode t i = (Except.error (RTError.insertRootExists i.ver r), t) := by
          simp [InsertNode, hd, hfv, hr]
        rw [he]
        exact ⟨h1, h2, h3⟩
      | none =>
        have hempty : pkeys t.nodes = [] := h2 hr
        have he : InsertNode t i = (Except.ok (),
            ⟨t.nodes ++ [(i.ver, ⟨i.ver, i.changes, none, []⟩)], some i.ver⟩) := by
          simp [InsertNode, hd, hfv, hr]
        rw [he]
        refine ⟨?_, ?_, ?_⟩
        · show (akeys (t.nodes ++ [(i.ver, ⟨i.ver, i.changes, none, []⟩)])).Nodup
          exact hnodupapp _
        · intro hcontra
          cases hcontra
        · show (pkeys (t.nodes ++ [(i.ver, ⟨i.ver, i.changes, none, []⟩)])).length ≤ 1
          rw [pkeys_append_single, hempty]
          simp
    · cases hp : alookup t.nodes i.fromVer with
      | none =>
        have he : InsertNode t i =
            (Except.error (RTError.insertParentNotFound i.fromVer i.ver), t) := by
          simp [InsertNode, hd, hfv, hp]
        rw [he]
        exact ⟨h1, h2, h3⟩
      | some pn =>
        have he : InsertNode t i = (Except.ok (),
            ⟨aupdate (t.nodes ++ [(i.ver, ⟨i.ver, i.changes, some i.fromVer, []⟩)])
              i.fromVer (fun n => { n with children := n.children ++ [i.ver] }),
              t.root⟩) := by
          simp [InsertNode, hd, hfv, hp]
        have hpk : pkeys (aupdate
            (t.nodes ++ [(i.ver, ⟨i.ver, i.changes, some i.fromVer, []⟩)])
            i.fromVer (fun n => { n with children := n.children ++ [i.ver] })) =
            pkeys t.nodes := by
          rw [pkeys_aupdate_preserve
            (t.nodes ++ [(i.ver, ({ version := i.ver, changes := i.changes, parent := some i.fromVer, children := [] } : Node))])
            i.fromVer (fun n => { n with children := n.children ++ [i.ver] })
            (fun n => rfl), pkeys_append_single]
          simp
        rw [he]
        refine ⟨?_, ?_, ?_⟩
        · show (akeys (aupdate
            (t.nodes ++ [(i.ver, ⟨i.ver, i.changes, some i.fromVer, []⟩)])
            i.fromVer (fun n => { n with children := n.children ++ [i.ver] }))).Nodup
          rw [akeys_aupdate]
          exact hnodupapp _
        · intro hroot
          show pkeys (aupdate
            (t.nodes ++ [(i.ver, ⟨i.ver, i.changes, some i.fromVer, []⟩)])
            i.fromVer (fun n => { n with children := n.children ++ [i.ver] })) = []
          rw [hpk]
          exact h2 hroot
        · show (pkeys (aupdate
            (t.nodes ++ [(i.ver, ⟨i.ver, i.changes, some i.fromVer, []⟩)])
            i.fromVer (fun n => { n with children := n.children ++ [i.ver] }))).length ≤ 1
          rw [hpk]
          exact h3

/-- The trees reachable through the public operations when construction is
fed at most one empty-parent input: built by NewReleaseTree and then mutated
by any sequence of InsertNode calls (failed calls leave the tree unchanged). -/
inductive ReachableGood : ReleaseTree → Prop where
  | build : ∀ (inputs : List ReleaseInput) (t : ReleaseTree),
      countEmptyFrom inputs ≤ 1 → NewReleaseTree inputs = Except.ok t →
      ReachableGood t
  | insert : ∀ (t : ReleaseTree) (i : ReleaseInput),
      ReachableGood t → ReachableGood (InsertNode t i).2

/-- C2 (amended): a tree built from an input list with at most one
empty-parent entry, then mutated by any sequence of single-node inserts,
has at most one parentless node.  (Construction itself does not reject
multiple empty-parent inputs — see the counterexample — so the hypothesis
on the input list is necessary.) -/
theorem reachable_at_most_one_parentless (t : ReleaseTree) (h : ReachableGood t) :
    (parentlessKeys t).length ≤ 1 := by
  have hINV : (akeys t.nodes).Nodup ∧ (t.root = none → pkeys t.nodes = []) ∧
      (pkeys t.nodes).length ≤ 1 := by
    induction h with
    | build inputs t hc hok => exact newReleaseTree_INV inputs t hc hok
    | insert t i _ ih => exact insertNode_preserves_INV t i ih.1 ih.2.1 ih.2.2
  rw [parentlessKeys_eq]
  exact hINV.2.2

/-- C2 witness: the fixed example tree is reachable (its inputs have exactly
one empty-parent entry), so it has at most one parentless node. -/
theorem reachable_at_most_one_parentless_witness :
    (parentlessKeys exTree).length ≤ 1 :=
  reachable_at_most_one_parentless exTree
    (ReachableGood.build exInputs exTree (by decide) (by decide))
